/-
Verification of the uptrade indicator/signal-combination core.

Shallow embedding of:
  * src/signals/combiner.py        (SignalCombiner: AND / OR / WEIGHTED / CONFIRM)
  * src/indicators/nb/ma_library_nb.py   (EMA, DEMA, SMA, WMA, McGinley kernels)
  * src/indicators/nb/spectral_nb.py     (Goertzel spectral estimator)
  * src/controllers/sniper_controller.py (signal derivation, MA-type resolution)

Numeric arrays are modelled as Lists over ℚ (exact arithmetic; the float64
NaN sentinel becomes `Option ℚ` with `none` = NaN).  Signal arrays are
Lists over ℤ.  Fallible code returns `Except`/`Option`.
-/
import Mathlib

namespace Uptrade

/-! ## Signal combiner: data model (combiner.py lines 13-34) -/

/-- `CombineMode` enum from combiner.py. -/
inductive CombineMode where
  | AND
  | OR
  | WEIGHTED
  | CONFIRM
deriving DecidableEq, Repr

/-- `IndicatorSignalConfig` pydantic model from combiner.py. -/
structure IndicatorSignalConfig where
  name : String
  weight : ℚ
  role : String
  signal_source : String
deriving DecidableEq, Repr

/-- `SignalCombinerConfig` pydantic model from combiner.py.
`confirm_window` is a Python `int`, hence ℤ. -/
structure SignalCombinerConfig where
  mode : CombineMode
  indicators : List IndicatorSignalConfig
  weighted_threshold : ℚ
  confirm_window : ℤ
deriving DecidableEq, Repr

/-- Errors raised by `SignalCombiner.combine` (`ValueError`s in Python);
`lengthMismatch` carries the `{name: len}` dict interpolated into the
message `"Signal arrays have different lengths: {lengths}"`. -/
inductive CombineError where
  | noSignals
  | lengthMismatch (lengths : List (String × ℕ))
deriving DecidableEq, Repr

/-- Number of bars: the common length of the input arrays (the combiner
validates equality before dispatching; `np.stack` gives `(k, n_bars)`). -/
def nBars (signals : List (String × List ℤ)) : ℕ :=
  match signals with
  | [] => 0
  | p :: _ => p.2.length

/-! ## AND mode (combiner.py `_combine_and`, lines 87-96) -/

/-- `_combine_and`: per bar, 1 where all inputs are 1
(`np.all(matrix == 1, axis=0)`), -1 where all are -1, else 0. -/
def combine_and (signals : List (String × List ℤ)) : List ℤ :=
  let arrays := signals.map Prod.snd
  (List.range (nBars signals)).map (fun i =>
    if ∀ a ∈ arrays, a.getD i 0 = 1 then 1
    else if ∀ a ∈ arrays, a.getD i 0 = -1 then -1
    else 0)

/-! ## OR mode (combiner.py `_combine_or`, lines 98-124) -/

/-- `_combine_or`: per bar, any long and no short gives 1, any short and no
long gives -1, a conflict resolves to the sign of the column sum, and no
non-zero input gives 0 (the `np.zeros` initialisation). -/
def combine_or (signals : List (String × List ℤ)) : List ℤ :=
  let arrays := signals.map Prod.snd
  (List.range (nBars signals)).map (fun i =>
    let hasLong := ∃ a ∈ arrays, a.getD i 0 = 1
    let hasShort := ∃ a ∈ arrays, a.getD i 0 = -1
    if hasLong ∧ ¬ hasShort then 1
    else if hasShort ∧ ¬ hasLong then -1
    else if hasLong ∧ hasShort then
      Int.sign ((arrays.map (fun a => a.getD i 0)).sum)
    else 0)

/-! ## WEIGHTED mode (combiner.py `_combine_weighted`, lines 126-152) -/

/-- Weight of an indicator name: the Python loop
`for c in config.indicators: weight_map[c.name] = c.weight` lets the last
config entry with a given name win; missing names default to 1.0. -/
def weightOf (cfg : SignalCombinerConfig) (nm : String) : ℚ :=
  match ((cfg.indicators.filter (fun c => c.name = nm)).getLast?) with
  | some c => c.weight
  | none => 1

/-- `_combine_weighted`: per-bar weighted sum over all inputs, divided by
the total weight when positive, compared against the threshold. -/
def combine_weighted (cfg : SignalCombinerConfig)
    (signals : List (String × List ℤ)) : List ℤ :=
  let totalWeight := (signals.map (fun p => weightOf cfg p.1)).sum
  (List.range (nBars signals)).map (fun i =>
    let weightedSum :=
      (signals.map (fun p => ((p.2.getD i 0 : ℚ)) * weightOf cfg p.1)).sum
    let normalized := if 0 < totalWeight then weightedSum / totalWeight
      else weightedSum
    if cfg.weighted_threshold ≤ normalized then 1
    else if normalized ≤ -cfg.weighted_threshold then -1
    else 0)

/-! ## CONFIRM mode (combiner.py `_combine_confirm`, lines 154-196) -/

/-- Python list slicing `l[start:stop]` with possibly negative `stop`
(negative indices count from the end), as used by
`sec_matrix[:, start:end]`. -/
def pySlice {α : Type} (l : List α) (start stop : ℤ) : List α :=
  let n : ℤ := l.length
  let st := if start < 0 then max 0 (n + start) else min start n
  let en := if stop < 0 then max 0 (n + stop) else min stop n
  (l.drop st.toNat).take (en.toNat - st.toNat)

/-- Names of config entries with `role == "primary"`, in config order. -/
def primaryNames (cfg : SignalCombinerConfig) : List String :=
  (cfg.indicators.filter (fun c => c.role = "primary")).map (fun c => c.name)

/-- The secondary arrays: config entries with `role == "secondary"` whose
name is present in the input mapping, in config order
(`[signals[name] for name in secondary_names if name in signals]`). -/
def secondaryArrays (cfg : SignalCombinerConfig)
    (signals : List (String × List ℤ)) : List (List ℤ) :=
  ((cfg.indicators.filter (fun c => c.role = "secondary")).map
    (fun c => c.name)).filterMap (fun nm => List.lookup nm signals)

/-- `_combine_confirm`: the first primary proposes, a secondary must echo
the direction inside the slice `[max(0, i-window), min(n, i+window+1))`;
falls back to AND when no primary is designated or its name is absent,
and passes the primary through when no secondary array is present. -/
def combine_confirm (cfg : SignalCombinerConfig)
    (signals : List (String × List ℤ)) : List ℤ :=
  match (primaryNames cfg).head? with
  | none => combine_and signals
  | some pname =>
    match List.lookup pname signals with
    | none => combine_and signals
    | some primary =>
      let n := primary.length
      let w := cfg.confirm_window
      let secArrays := secondaryArrays cfg signals
      if secArrays = [] then primary
      else (List.range n).map (fun i =>
        if primary.getD i 0 = 0 then 0
        else
          let d := primary.getD i 0
          let lo := max 0 ((i : ℤ) - w)
          let hi := min (n : ℤ) ((i : ℤ) + w + 1)
          if secArrays.any (fun a => (pySlice a lo hi).any (fun x => x == d))
          then d else 0)

/-! ## Entry point (combiner.py `combine`, lines 56-85) -/

/-- `SignalCombiner.combine`: raises on an empty mapping, validates that
all arrays share one length (error message carries the `{name: len}`
dict), then dispatches on the mode. -/
def combine (cfg : SignalCombinerConfig)
    (signals : List (String × List ℤ)) : Except CombineError (List ℤ) :=
  if signals = [] then .error .noSignals
  else
    let lengths := signals.map (fun p => (p.1, p.2.length))
    if 1 < (lengths.map Prod.snd).dedup.length then
      .error (.lengthMismatch lengths)
    else
      match cfg.mode with
      | .AND => .ok (combine_and signals)
      | .OR => .ok (combine_or signals)
      | .WEIGHTED => .ok (combine_weighted cfg signals)
      | .CONFIRM => .ok (combine_confirm cfg signals)

/-! ## Moving-average kernels (ma_library_nb.py)

Exact-arithmetic embedding over ℚ.  For the convolution kernels (SMA,
WMA) the NaN warm-up sentinel is `none : Option ℚ`, and array indexing is
checked: an index outside `[0, len)` makes the whole kernel return
`none`, so "no out-of-bounds access" is the statement that the kernel
returns `some`. -/

/-- Checked array read `src[k]` for an integer index: Python/Numba raises
(or reads garbage) outside `[0, len)`; the model returns `none`. -/
def getQ (src : List ℚ) (k : ℤ) : Option ℚ :=
  if k < 0 then none else src.get? k.toNat

/-- Tail recurrence of `ema_1d_nb`: `out[i] = alpha*src[i] + (1-alpha)*out[i-1]`. -/
def emaGo (alpha : ℚ) : ℚ → List ℚ → List ℚ
  | _, [] => []
  | prev, x :: xs =>
    let y := alpha * x + (1 - alpha) * prev
    y :: emaGo alpha y xs

/-- `ema_1d_nb` (lines 120-129): `alpha = 2/(window+1)`, seeded with
`out[0] = src[0]`. -/
def ema_1d_nb (src : List ℚ) (window : ℕ) : List ℚ :=
  match src with
  | [] => []
  | x :: xs => x :: emaGo (2 / ((window : ℚ) + 1)) x xs

/-- `dema_1d_nb` (lines 173-181): `e1 = ema(src)`, `e2 = ema(e1)`,
`out[i] = 2*e1[i] - e2[i]`. -/
def dema_1d_nb (src : List ℚ) (window : ℕ) : List ℚ :=
  let e1 := ema_1d_nb src window
  let e2 := ema_1d_nb e1 window
  (List.range src.length).map (fun i => 2 * e1.getD i 0 - e2.getD i 0)

/-- Loop body chain of `sma_1d_nb` over the remaining indices, carrying
the running `cumsum`: `cumsum += src[i]`, and `cumsum -= src[i-window]`
once `i >= window`; NaN before index `window-1`, else `cumsum/window`. -/
def smaGo (src : List ℚ) (window : ℕ) : List ℕ → ℚ → Option (List (Option ℚ))
  | [], _ => some []
  | i :: rest, cumsum =>
    match getQ src i with
    | none => none
    | some xi =>
      let c1 := cumsum + xi
      let step : Option ℚ :=
        if window ≤ i then (getQ src ((i : ℤ) - window)).map (fun y => c1 - y)
        else some c1
      match step with
      | none => none
      | some c2 =>
        let outi : Option ℚ := if i < window - 1 then none else some (c2 / window)
        (smaGo src window rest c2).map (fun tail => outi :: tail)

/-- `sma_1d_nb` (lines 101-114) with checked indexing. -/
def sma_1d_nb (src : List ℚ) (window : ℕ) : Option (List (Option ℚ)) :=
  smaGo src window (List.range src.length) 0

/-- Sequence a list of checked reads: `none` (an out-of-bounds access
somewhere) poisons the whole computation. -/
def seqOpt {α : Type} : List (Option α) → Option (List α)
  | [] => some []
  | none :: _ => none
  | some x :: rest => (seqOpt rest).map (fun t => x :: t)

/-- `wma_1d_nb` (lines 135-148) with checked indexing: NaN before index
`window-1`, else `sum_j src[i-window+1+j]*(j+1) / (window*(window+1)/2)`. -/
def wma_1d_nb (src : List ℚ) (window : ℕ) : Option (List (Option ℚ)) :=
  let denom : ℚ := (window : ℚ) * ((window : ℚ) + 1) / 2
  seqOpt ((List.range src.length).map (fun i : ℕ =>
    if i < window - 1 then some none
    else
      (seqOpt ((List.range window).map
        (fun j : ℕ => (getQ src ((i : ℤ) - window + 1 + j)).map
          (fun v => v * ((j : ℚ) + 1))))).map
      (fun terms => some (terms.sum / denom))))

/-- Modelled from the spec: the "shrinking window" SMA the spec's
edge-case policy describes — at each index the mean of the available
history `src[max(0, i-window+1) .. i]` — for comparison against
`sma_1d_nb`. -/
def smaPartialSpec (src : List ℚ) (window : ℕ) : List ℚ :=
  (List.range src.length).map (fun i =>
    let len := min (i + 1) window
    let w := (src.take (i + 1)).drop (i + 1 - len)
    w.sum / (len : ℚ))

/-- One step of `mcginley_1d_nb`: `prev == 0` passes the raw input
through; otherwise `out = prev + (src-prev)/(window*(src/prev)^4)`, with
`none` (a non-finite float) when that denominator is zero; a non-finite
`prev` stays non-finite. -/
def mcgStep (window : ℚ) (prev : Option ℚ) (x : ℚ) : Option ℚ :=
  match prev with
  | none => none
  | some p =>
    if p = 0 then some x
    else
      let ratio := x / p
      let denom := window * ratio ^ 4
      if denom = 0 then none else some (p + (x - p) / denom)

/-- `mcginley_1d_nb` (lines 453-465): seeded with `out[0] = src[0]`. -/
def mcginley_1d_nb (src : List ℚ) (window : ℚ) : List (Option ℚ) :=
  match src with
  | [] => []
  | x :: xs => xs.scanl (mcgStep window) (some x)

/-! ## Goertzel spectral estimator (spectral_nb.py `goertzel_1d_nb`, lines 23-71)

The kernel is embedded generically over a field `α` together with the
transcendental primitives it calls (`np.sin`, `np.cos`, `np.sqrt`,
`np.pi`), kept abstract so the algebraic structure of the computation is
verified for every interpretation of those primitives — in particular the
real-number one the float64 program approximates. -/

/-- The transcendental primitives used by the spectral kernels. -/
structure SpectralOps (α : Type) where
  sin : α → α
  cos : α → α
  sqrt : α → α
  pi : α

/-- One bar of `goertzel_1d_nb`: window `length = min(i+1, window_size)`,
bars with fewer than 2 samples give 0; otherwise the Goertzel recurrence
`q0 = coeff*q1 - q2 + src[i-length+1+j]` over the window, the amplitude
`sqrt(real^2+imag^2) * sqrt(var/length)` divided by `scale_factor`, and
the phase modulation `* sin(2*pi*i / cycle_len)`. -/
def goertzelBar {α : Type} [Field α] (ops : SpectralOps α) (src : List α)
    (window_size : ℕ) (cycle_len scale_factor : α) (i : ℕ) : α :=
  let length := min (i + 1) window_size
  if length < 2 then 0
  else
    let k := (length : α) / cycle_len
    let omega := 2 * ops.pi * k / (length : α)
    let sine := ops.sin omega
    let cosine := ops.cos omega
    let coeff := 2 * cosine
    let q := (List.range length).foldl
      (fun (q : α × α) j =>
        (coeff * q.1 - q.2 + src.getD (i + 1 - length + j) 0, q.1)) (0, 0)
    let real := (cosine * q.1 - q.2) / (length : α) * 2
    let imag := (sine * q.1) / (length : α) * 2
    let mean := ((List.range length).map (fun j => src.getD (i - j) 0)).sum
      / (length : α)
    let var := ((List.range length).map
      (fun j => (src.getD (i - j) 0 - mean) ^ 2)).sum
    let normalizer := ops.sqrt (var / (length : α))
    let amp := ops.sqrt (real * real + imag * imag) * normalizer
    let final_amp := amp / scale_factor
    final_amp * ops.sin (ops.pi * 2 * (i : α) / cycle_len)

/-- `goertzel_1d_nb`: the per-bar computation at every index. -/
def goertzel_1d_nb {α : Type} [Field α] (ops : SpectralOps α) (src : List α)
    (window_size : ℕ) (cycle_len scale_factor : α) : List α :=
  (List.range src.length).map (goertzelBar ops src window_size cycle_len scale_factor)

/-- The window of source samples ending at bar `i` with `len` samples:
`src[i+1-len .. i]`. -/
def goertzelWindow {α : Type} (src : List α) (i len : ℕ) : List α :=
  (src.take (i + 1)).drop (i + 1 - len)

/-- The (unnormalised) generalized-Goertzel DFT amplitude over an explicit
window `w`, evaluated at the target cycle frequency `k = len/cycle_len`:
the `q`-recurrence followed by `sqrt(real^2 + imag^2)`. -/
def goertzelAmpOn {α : Type} [Field α] (ops : SpectralOps α) (w : List α)
    (cycle_len : α) : α :=
  let length := w.length
  let omega := 2 * ops.pi * ((length : α) / cycle_len) / (length : α)
  let sine := ops.sin omega
  let cosine := ops.cos omega
  let q := w.foldl (fun (q : α × α) v => (2 * cosine * q.1 - q.2 + v, q.1)) (0, 0)
  let real := (cosine * q.1 - q.2) / (length : α) * 2
  let imag := (sine * q.1) / (length : α) * 2
  ops.sqrt (real * real + imag * imag)

/-- Standard deviation (population form, `sqrt(var/n)`) of an explicit
window `w`. -/
def stdOn {α : Type} [Field α] (ops : SpectralOps α) (w : List α) : α :=
  let mean := w.sum / (w.length : α)
  ops.sqrt ((w.map (fun x => (x - mean) ^ 2)).sum / (w.length : α))

/-! ## Sniper controller (sniper_controller.py `compute_signal`)

`SniperProX.run` itself (sniper_nb.py) is not needed by the claims; the
controller logic that resolves the MA-type name and derives the final
signal from the kernel result is embedded with the kernel left abstract. -/

/-- A Python value that is either an `int` or a `str` (the two types that
meet in the `name == cfg.ma_type` comparison). -/
inductive PyVal where
  | int (n : ℤ)
  | str (s : String)
deriving DecidableEq, Repr

/-- Python `==` between such values: equal ints or equal strings compare
equal; an `int` never equals a `str`. -/
def pyEq : PyVal → PyVal → Bool
  | .int a, .int b => a == b
  | .str a, .str b => a == b
  | _, _ => false

/-- `MA_TYPE_NAMES` (ma_library_nb.py lines 51-87): dict from Pine-Script
display names to integer MA-type codes, in insertion order. -/
def MA_TYPE_NAMES : List (String × ℤ) :=
  [("Simple Moving Average", 0),
   ("Exponential Moving Average", 1),
   ("Weighted Moving Average", 2),
   ("Relative Moving Average", 3),
   ("Smoothed Moving Average", 3),
   ("Double Exponential Moving Average", 4),
   ("Triple Exponential Moving Average", 5),
   ("Hull Moving Average", 6),
   ("Arnaud Legoux Moving Average", 7),
   ("Jurik Moving Average", 8),
   ("Kaufman\x27s Adaptive Moving Average", 9),
   ("Fractal Adaptive Moving Average", 10),
   ("Volatility Adjusted Moving Average", 11),
   ("Tilson T3 Moving Average", 12),
   ("Tilson T3(early version) Moving Average", 13),
   ("Zero-Lag Exponential Moving Average", 14),
   ("McGinley", 15),
   ("Modular Filter", 16),
   ("Coefficient of Variation Weighted Moving Average", 17),
   ("Ehlers Dynamic Smoothed Moving Average", 18),
   ("Ehlers EMA Smoother", 20),
   ("Ahrens Moving Average", 21),
   ("Alexander Moving Average", 22),
   ("Average Directional Volatility Moving Average", 23),
   ("Integral of Linear Regression Slope", 24),
   ("Leader Exponential Moving Average", 25),
   ("Recursive Moving Trendline", 26),
   ("Simple Decycler", 27),
   ("Triangular Moving Average", 28),
   ("Exponential Moving Average Optimized", 29),
   ("Donchian", 30),
   ("Donchian v2", 31),
   ("Volume Weighted Moving Average", 32),
   ("Least Squares Moving Average", 33),
   ("Ehlers Super Smoother", 19)]

/-- The resolution loop of `compute_signal` (sniper_controller.py lines
56-61): `for idx, name in MA_TYPE_NAMES.items(): if name == cfg.ma_type:
ma_type_idx = idx; break` — dict items are `(key, value)` pairs, so `idx`
is the display *string* and `name` the integer *code*; on a match the
string key would be assigned, otherwise the initial value 0 survives. -/
def resolveLoop (items : List (String × ℤ)) (cfg_ma_type : String) : PyVal :=
  match items with
  | [] => .int 0
  | (idx, name) :: rest =>
    if pyEq (.int name) (.str cfg_ma_type) then .str idx
    else resolveLoop rest cfg_ma_type

/-- `ma_type_idx` as computed by `compute_signal` for a configured
`ma_type` string. -/
def resolve_ma_type (cfg_ma_type : String) : PyVal :=
  resolveLoop MA_TYPE_NAMES cfg_ma_type

/-- The slice of `SniperProX.run`'s output that `compute_signal` reads:
the sparse `major_buy` / `major_sell` event arrays (`none` = NaN = no
event). -/
structure SniperResult where
  major_buy : List (Option ℚ)
  major_sell : List (Option ℚ)

/-- Lines 76-83 of sniper_controller.py: latest bar's `major_buy`
non-missing gives 1, else latest `major_sell` non-missing gives -1,
else 0 (`len(arr) > 0 and not np.isnan(arr[-1])`). -/
def latestSignal (r : SniperResult) : ℤ :=
  if 0 < r.major_buy.length ∧ ((r.major_buy.getLast?).getD none).isSome = true
  then 1
  else if 0 < r.major_sell.length ∧ ((r.major_sell.getLast?).getD none).isSome = true
  then -1
  else 0

/-- `SniperController.compute_signal`, with the heavy `SniperProX.run`
kernel abstracted as a function `run` of the resolved MA-type value and
the input frame `df`. -/
def compute_signal {δ : Type} (run : PyVal → δ → SniperResult)
    (cfg_ma_type : String) (df : δ) : ℤ :=
  latestSignal (run (resolve_ma_type cfg_ma_type) df)

end Uptrade

namespace Uptrade

/-! ## Helper lemmas -/

lemma getD_map_range {β : Type} (f : ℕ → β) (d : β) {n i : ℕ} (h : i < n) :
    ((List.range n).map f).getD i d = f i := by
  rw [List.getD_eq_getElem _ _ (by simpa using h)]
  simp

lemma length_le_one_of_all_eq {l : List ℕ} {c : ℕ} (hnd : l.Nodup)
    (h : ∀ x ∈ l, x = c) : l.length ≤ 1 := by
  match l with
  | [] => simp
  | [x] => simp
  | x :: y :: ys =>
    exfalso
    have hx := h x (by simp)
    have hy := h y (by simp)
    subst hx
    rw [List.nodup_cons] at hnd
    exact hnd.1 (by simp [hy])

lemma one_lt_length_of_mem_ne {l : List ℕ} {a b : ℕ} (hnd : l.Nodup)
    (ha : a ∈ l) (hb : b ∈ l) (hab : a ≠ b) : 1 < l.length := by
  match l with
  | [] => simp at ha
  | [x] =>
    simp at ha hb
    exact absurd (ha.trans hb.symm) hab
  | x :: y :: ys => simp

lemma dedup_le_one_of_const {l : List ℕ} {c : ℕ} (h : ∀ x ∈ l, x = c) :
    ¬ 1 < l.dedup.length := by
  have := length_le_one_of_all_eq (l := l.dedup) (c := c) l.nodup_dedup
    (fun x hx => h x (List.mem_dedup.mp hx))
  omega

lemma one_lt_dedup_of_mem_ne {l : List ℕ} {a b : ℕ} (ha : a ∈ l) (hb : b ∈ l)
    (hab : a ≠ b) : 1 < l.dedup.length :=
  one_lt_length_of_mem_ne l.nodup_dedup (List.mem_dedup.mpr ha)
    (List.mem_dedup.mpr hb) hab

end Uptrade

namespace Uptrade

/-! ## C4: combiner error paths -/

/-- **C4.** `SignalCombiner.combine` raises an "empty signals" error on an
empty input mapping, and a "length mismatch" error naming the mismatched
lengths (via the `{name: len}` dict in the message) whenever two input
arrays differ in length — in both cases returning the error instead of
any combined output; in particular for arrays of length 2 and 3. -/
theorem combine_error_paths :
    (∀ cfg : SignalCombinerConfig, combine cfg [] = .error .noSignals) ∧
    (∀ (cfg : SignalCombinerConfig) (signals : List (String × List ℤ))
       (p q : String × List ℤ), p ∈ signals → q ∈ signals →
       p.2.length ≠ q.2.length →
       combine cfg signals =
         .error (.lengthMismatch (signals.map (fun r => (r.1, r.2.length)))) ∧
       (p.1, p.2.length) ∈ signals.map (fun r => (r.1, r.2.length)) ∧
       (q.1, q.2.length) ∈ signals.map (fun r => (r.1, r.2.length))) ∧
    combine ⟨.AND, [], 1/2, 3⟩ [("a", [1, 0]), ("b", [1, 0, 1])] =
      .error (.lengthMismatch [("a", 2), ("b", 3)]) := by
  refine ⟨fun cfg => rfl, ?_, rfl⟩
  intro cfg signals p q hp hq hpq
  have hne : signals ≠ [] := by
    intro h
    subst h
    simp at hp
  have hlt :
      1 < ((signals.map (fun r => (r.1, r.2.length))).map Prod.snd).dedup.length := by
    refine one_lt_dedup_of_mem_ne (a := p.2.length) (b := q.2.length) ?_ ?_ hpq
    · rw [List.map_map]
      exact List.mem_map_of_mem _ hp
    · rw [List.map_map]
      exact List.mem_map_of_mem _ hq
  refine ⟨?_, List.mem_map_of_mem _ hp, List.mem_map_of_mem _ hq⟩
  simp only [combine]
  rw [if_neg hne, if_pos hlt]

theorem combine_error_paths_witness :
    combine ⟨CombineMode.OR, [], 1/2, 3⟩ [("a", [1, 0]), ("b", [1, 0, 1])] =
      .error (.lengthMismatch [("a", 2), ("b", 3)]) :=
  (combine_error_paths.2.1 ⟨.OR, [], 1/2, 3⟩ _ ("a", [1, 0]) ("b", [1, 0, 1])
    (by decide) (by decide) (by decide)).1

/-! ## C5: DEMA chain identity -/

/-- **C5.** For every window `n ≥ 1` and every finite input series, the
DEMA kernel satisfies `DEMA(src,n) = 2*EMA(src,n) - EMA(EMA(src,n),n)`
pointwise at every index, with `EMA` the same seeded kernel used as the
exact intermediate. -/
theorem dema_chain_identity (src : List ℚ) (n : ℕ) (hn : 1 ≤ n) :
    (dema_1d_nb src n).length = src.length ∧
    ∀ i, i < src.length →
      (dema_1d_nb src n).getD i 0 =
        2 * (ema_1d_nb src n).getD i 0 -
          (ema_1d_nb (ema_1d_nb src n) n).getD i 0 := by
  constructor
  · simp [dema_1d_nb]
  · intro i hi
    simp only [dema_1d_nb]
    rw [getD_map_range _ _ hi]

theorem dema_chain_identity_witness :
    (dema_1d_nb [1, 2, 3] 3).getD 1 0 =
      2 * (ema_1d_nb [1, 2, 3] 3).getD 1 0 -
        (ema_1d_nb (ema_1d_nb [1, 2, 3] 3) 3).getD 1 0 :=
  (dema_chain_identity [1, 2, 3] 3 (by norm_num)).2 1 (by norm_num)

/-! ## C7: McGinley division-by-zero guard -/

lemma scanl_getD_succ (f : Option ℚ → ℚ → Option ℚ) :
    ∀ (xs : List ℚ) (b : Option ℚ) (i : ℕ), i < xs.length →
      (xs.scanl f b).getD (i + 1) none =
        f ((xs.scanl f b).getD i none) (xs.getD i 0) := by
  intro xs
  induction xs with
  | nil =>
    intro b i hi
    simp at hi
  | cons x xs ih =>
    intro b i hi
    rw [List.scanl_cons]
    cases i with
    | zero =>
      cases xs <;> simp [List.scanl]
    | succ j =>
      have hj : j < xs.length := by simpa using hi
      simp only [List.getD_cons_succ]
      exact ih (f b x) j hj

/-- **C7.** In the McGinley kernel, whenever the previous output is 0 the
ratio `(src/prev)^4` is not computed and the bar passes the raw input
through: `out[i+1] = src[i+1]`, a defined (non-NaN) value. -/
theorem mcginley_zero_passthrough (src : List ℚ) (w : ℚ) (i : ℕ)
    (hi : i + 1 < src.length)
    (h0 : (mcginley_1d_nb src w).getD i none = some 0) :
    (mcginley_1d_nb src w).getD (i + 1) none = some (src.getD (i + 1) 0) ∧
    (mcginley_1d_nb src w).length = src.length := by
  match src with
  | [] => simp at hi
  | x :: xs =>
    refine ⟨?_, by simp [mcginley_1d_nb, List.length_scanl]⟩
    have hx : i < xs.length := by simpa using hi
    simp only [mcginley_1d_nb] at h0 ⊢
    rw [scanl_getD_succ (mcgStep w) xs (some x) i hx, h0]
    simp [mcgStep]

theorem mcginley_zero_passthrough_witness :
    (mcginley_1d_nb [0, 5, 7] 14).getD 1 none = some 5 :=
  (mcginley_zero_passthrough [0, 5, 7] 14 0 (by norm_num) rfl).1

/-! ## C9: Sniper controller signal derivation -/

lemma lastCond_iff (l : List (Option ℚ)) :
    (0 < l.length ∧ ((l.getLast?).getD none).isSome = true) ↔
      ∃ v, l.getLast? = some (some v) := by
  cases h : l.getLast? with
  | none =>
    have hl : l = [] := by
      cases l with
      | nil => rfl
      | cons y ys => simp [List.getLast?_eq_none_iff] at h
    subst hl
    simp
  | some o =>
    have hlen : 0 < l.length := by
      cases l with
      | nil => simp at h
      | cons y ys => simp
    cases o with
    | none => simp [h, hlen]
    | some v => simp [h, hlen]

lemma latestSignal_range (r : SniperResult) :
    latestSignal r = -1 ∨ latestSignal r = 0 ∨ latestSignal r = 1 := by
  unfold latestSignal
  split
  · right; right; rfl
  · split
    · left; rfl
    · right; left; rfl

/-- **C9.** The Sniper controller's derived signal: a non-missing
`major_buy` at the latest bar gives 1; otherwise a non-missing
`major_sell` at the latest bar gives -1; otherwise 0 — the buy check
precedes the sell check — and the derived signal always lies in
{-1, 0, 1}, for every input frame (hence also for all-NaN, empty or
constant-price inputs, whatever the kernel returns there). -/
theorem sniper_signal_derivation (r : SniperResult) :
    ((∃ v, r.major_buy.getLast? = some (some v)) → latestSignal r = 1) ∧
    (¬ (∃ v, r.major_buy.getLast? = some (some v)) →
      (∃ v, r.major_sell.getLast? = some (some v)) → latestSignal r = -1) ∧
    (¬ (∃ v, r.major_buy.getLast? = some (some v)) →
      ¬ (∃ v, r.major_sell.getLast? = some (some v)) → latestSignal r = 0) ∧
    (latestSignal r = -1 ∨ latestSignal r = 0 ∨ latestSignal r = 1) ∧
    (∀ (δ : Type) (run : PyVal → δ → SniperResult) (mt : String) (df : δ),
      compute_signal run mt df = -1 ∨ compute_signal run mt df = 0 ∨
        compute_signal run mt df = 1) := by
  refine ⟨?_, ?_, ?_, latestSignal_range r, ?_⟩
  · intro hb
    unfold latestSignal
    rw [if_pos ((lastCond_iff r.major_buy).mpr hb)]
  · intro hb hs
    unfold latestSignal
    rw [if_neg (fun hc => hb ((lastCond_iff r.major_buy).mp hc)),
      if_pos ((lastCond_iff r.major_sell).mpr hs)]
  · intro hb hs
    unfold latestSignal
    rw [if_neg (fun hc => hb ((lastCond_iff r.major_buy).mp hc)),
      if_neg (fun hc => hs ((lastCond_iff r.major_sell).mp hc))]
  · intro δ run mt df
    exact latestSignal_range (run (resolve_ma_type mt) df)

theorem sniper_signal_derivation_witness :
    latestSignal ⟨[none, some 1], [some 2, some 3]⟩ = 1 :=
  (sniper_signal_derivation ⟨[none, some 1], [some 2, some 3]⟩).1 ⟨1, rfl⟩

/-! ## C10: MA-type resolution never matches -/

lemma resolveLoop_const (items : List (String × ℤ)) (s : String) :
    resolveLoop items s = .int 0 := by
  induction items with
  | nil => rfl
  | cons p rest ih =>
    cases p with
    | mk k v => simp [resolveLoop, pyEq, ih]

/-- **C10.** The `compute_signal` resolution loop iterates the dict items
as `(idx, name)` — string key and integer code — and compares the integer
code against the configured string, which never matches, so the resolved
MA-type value is the initial `0` (SMA) for every configured name; hence
two runs on the same data differing only in the configured `ma_type`
produce the same derived signal. -/
theorem ma_type_resolution_constant :
    (∀ s : String, resolve_ma_type s = .int 0) ∧
    (∀ (δ : Type) (run : PyVal → δ → SniperResult) (df : δ) (s1 s2 : String),
      compute_signal run s1 df = compute_signal run s2 df) := by
  refine ⟨fun s => resolveLoop_const MA_TYPE_NAMES s, ?_⟩
  intro δ run df s1 s2
  simp [compute_signal, resolve_ma_type, resolveLoop_const]

end Uptrade

namespace Uptrade

/-! ## C1/C2: AND and OR mode characterizations -/

lemma nBars_eq {signals : List (String × List ℤ)} {n : ℕ} (hne : signals ≠ [])
    (hlen : ∀ p ∈ signals, p.2.length = n) : nBars signals = n := by
  cases signals with
  | nil => exact absurd rfl hne
  | cons p rest => exact hlen p (by simp)

lemma lengths_const {signals : List (String × List ℤ)} {n : ℕ}
    (hlen : ∀ p ∈ signals, p.2.length = n) :
    ∀ x ∈ (signals.map (fun p => (p.1, p.2.length))).map Prod.snd, x = n := by
  intro x hx
  rw [List.map_map] at hx
  obtain ⟨p, hp, hpx⟩ := List.mem_map.mp hx
  exact hpx ▸ hlen p hp

lemma forall_map_snd {signals : List (String × List ℤ)} {P : List ℤ → Prop} :
    (∀ a ∈ signals.map Prod.snd, P a) ↔ ∀ p ∈ signals, P p.2 := by
  constructor
  · intro h p hp
    exact h p.2 (List.mem_map_of_mem _ hp)
  · intro h a ha
    obtain ⟨p, hp, hpa⟩ := List.mem_map.mp ha
    exact hpa ▸ h p hp

lemma exists_map_snd {signals : List (String × List ℤ)} {P : List ℤ → Prop} :
    (∃ a ∈ signals.map Prod.snd, P a) ↔ ∃ p ∈ signals, P p.2 := by
  constructor
  · intro h
    obtain ⟨a, ha, hPa⟩ := h
    obtain ⟨p, hp, hpa⟩ := List.mem_map.mp ha
    exact ⟨p, hp, hpa ▸ hPa⟩
  · intro h
    obtain ⟨p, hp, hPp⟩ := h
    exact ⟨p.2, List.mem_map_of_mem _ hp, hPp⟩

/-- **C1.** For every non-empty mapping of equal-length signal arrays over
{-1,0,1}, the combiner in AND mode succeeds and returns, at each bar, 1
exactly when all inputs are 1, -1 exactly when all inputs are -1, and 0
otherwise; in particular `a=[1,1,-1,0,1], b=[1,-1,-1,0,1]` gives
`[1,0,-1,0,1]`. -/
theorem and_mode_characterization (cfg : SignalCombinerConfig)
    (signals : List (String × List ℤ)) (n : ℕ)
    (hmode : cfg.mode = CombineMode.AND)
    (hne : signals ≠ [])
    (hlen : ∀ p ∈ signals, p.2.length = n)
    (hrange : ∀ p ∈ signals, ∀ x ∈ p.2, x = -1 ∨ x = 0 ∨ x = 1) :
    combine cfg signals = .ok (combine_and signals) ∧
    (combine_and signals).length = n ∧
    (∀ i, i < n →
      ((combine_and signals).getD i 0 = 1 ↔ ∀ p ∈ signals, p.2.getD i 0 = 1) ∧
      ((combine_and signals).getD i 0 = -1 ↔ ∀ p ∈ signals, p.2.getD i 0 = -1) ∧
      ((combine_and signals).getD i 0 = 0 ↔
        ¬ (∀ p ∈ signals, p.2.getD i 0 = 1) ∧
        ¬ (∀ p ∈ signals, p.2.getD i 0 = -1))) ∧
    combine ⟨.AND, [], 1/2, 3⟩
        [("a", [1, 1, -1, 0, 1]), ("b", [1, -1, -1, 0, 1])] =
      .ok [1, 0, -1, 0, 1] := by
  have hn := nBars_eq hne hlen
  have hd := dedup_le_one_of_const (lengths_const hlen)
  obtain ⟨p0, hp0⟩ := List.exists_mem_of_ne_nil signals hne
  refine ⟨?_, ?_, ?_, rfl⟩
  · simp only [combine]
    rw [if_neg hne, if_neg hd, hmode]
  · simp [combine_and, hn]
  · intro i hi
    have hval : (combine_and signals).getD i 0 =
        (if ∀ p ∈ signals, p.2.getD i 0 = 1 then 1
         else if ∀ p ∈ signals, p.2.getD i 0 = -1 then -1 else (0 : ℤ)) := by
      simp only [combine_and]
      rw [getD_map_range _ _ (by rw [hn]; exact hi)]
      rw [if_congr forall_map_snd rfl (if_congr forall_map_snd rfl rfl)]
    by_cases hA : ∀ p ∈ signals, p.2.getD i 0 = 1
    · have hnB : ¬ ∀ p ∈ signals, p.2.getD i 0 = -1 := by
        intro hB
        have h1 := hA p0 hp0
        have h2 := hB p0 hp0
        rw [h1] at h2
        exact absurd h2 (by decide)
      rw [hval, if_pos hA]
      exact ⟨iff_of_true rfl hA, iff_of_false (by decide) hnB,
        iff_of_false (by decide) (fun hc => hc.1 hA)⟩
    · by_cases hB : ∀ p ∈ signals, p.2.getD i 0 = -1
      · rw [hval, if_neg hA, if_pos hB]
        exact ⟨iff_of_false (by decide) hA, iff_of_true rfl hB,
          iff_of_false (by decide) (fun hc => hc.2 hB)⟩
      · rw [hval, if_neg hA, if_neg hB]
        exact ⟨iff_of_false (by decide) hA, iff_of_false (by decide) hB,
          iff_of_true rfl ⟨hA, hB⟩⟩

theorem and_mode_characterization_witness :
    combine ⟨CombineMode.AND, [], 1/2, 3⟩
        [("a", [1, 1, -1, 0, 1]), ("b", [1, -1, -1, 0, 1])] =
      .ok (combine_and [("a", [1, 1, -1, 0, 1]), ("b", [1, -1, -1, 0, 1])]) :=
  (and_mode_characterization ⟨.AND, [], 1/2, 3⟩
    [("a", [1, 1, -1, 0, 1]), ("b", [1, -1, -1, 0, 1])] 5 rfl (by decide)
    (by decide) (by decide)).1

/-- **C2.** For every non-empty mapping of equal-length signal arrays over
{-1,0,1}, OR mode succeeds and returns, at each bar: 1 if some input is 1
and none is -1; -1 if some input is -1 and none is 1; the sign of the sum
of all inputs when both polarities occur (a tie gives 0); and 0 when no
input is non-zero; in particular `a=[1,0,-1,0], b=[0,0,-1,0]` gives
`[1,0,-1,0]`. -/
theorem or_mode_characterization (cfg : SignalCombinerConfig)
    (signals : List (String × List ℤ)) (n : ℕ)
    (hmode : cfg.mode = CombineMode.OR)
    (hne : signals ≠ [])
    (hlen : ∀ p ∈ signals, p.2.length = n)
    (hrange : ∀ p ∈ signals, ∀ x ∈ p.2, x = -1 ∨ x = 0 ∨ x = 1) :
    combine cfg signals = .ok (combine_or signals) ∧
    (combine_or signals).length = n ∧
    (∀ i, i < n →
      (((∃ p ∈ signals, p.2.getD i 0 = 1) ∧ ¬ (∃ p ∈ signals, p.2.getD i 0 = -1)) →
        (combine_or signals).getD i 0 = 1) ∧
      (((∃ p ∈ signals, p.2.getD i 0 = -1) ∧ ¬ (∃ p ∈ signals, p.2.getD i 0 = 1)) →
        (combine_or signals).getD i 0 = -1) ∧
      (((∃ p ∈ signals, p.2.getD i 0 = 1) ∧ (∃ p ∈ signals, p.2.getD i 0 = -1)) →
        (combine_or signals).getD i 0 =
          Int.sign ((signals.map (fun p => p.2.getD i 0)).sum)) ∧
      ((¬ (∃ p ∈ signals, p.2.getD i 0 = 1) ∧ ¬ (∃ p ∈ signals, p.2.getD i 0 = -1)) →
        (combine_or signals).getD i 0 = 0)) ∧
    combine ⟨.OR, [], 1/2, 3⟩ [("a", [1, 0, -1, 0]), ("b", [0, 0, -1, 0])] =
      .ok [1, 0, -1, 0] := by
  have hn := nBars_eq hne hlen
  have hd := dedup_le_one_of_const (lengths_const hlen)
  refine ⟨?_, ?_, ?_, rfl⟩
  · simp only [combine]
    rw [if_neg hne, if_neg hd, hmode]
  · simp [combine_or, hn]
  · intro i hi
    have hval : (combine_or signals).getD i 0 =
        (if (∃ p ∈ signals, p.2.getD i 0 = 1) ∧ ¬ (∃ p ∈ signals, p.2.getD i 0 = -1)
         then 1
         else if (∃ p ∈ signals, p.2.getD i 0 = -1) ∧ ¬ (∃ p ∈ signals, p.2.getD i 0 = 1)
         then -1
         else if (∃ p ∈ signals, p.2.getD i 0 = 1) ∧ (∃ p ∈ signals, p.2.getD i 0 = -1)
         then Int.sign ((signals.map (fun p => p.2.getD i 0)).sum)
         else (0 : ℤ)) := by
      simp only [combine_or]
      rw [getD_map_range _ _ (by rw [hn]; exact hi)]
      rw [if_congr (and_congr exists_map_snd (not_congr exists_map_snd)) rfl
        (if_congr (and_congr exists_map_snd (not_congr exists_map_snd)) rfl
          (if_congr (and_congr exists_map_snd exists_map_snd) ?_ rfl))]
      rw [List.map_map]
      rfl
    refine ⟨?_, ?_, ?_, ?_⟩
    · intro h
      rw [hval, if_pos h]
    · intro h
      rw [hval, if_neg (fun hc => h.2 hc.1), if_pos h]
    · intro h
      rw [hval, if_neg (fun hc => hc.2 h.2), if_neg (fun hc => hc.2 h.1),
        if_pos h]
    · intro h
      rw [hval, if_neg (fun hc => h.1 hc.1), if_neg (fun hc => h.2 hc.1),
        if_neg (fun hc => h.1 hc.1)]

theorem or_mode_characterization_witness :
    combine ⟨CombineMode.OR, [], 1/2, 3⟩
        [("a", [1, 0, -1, 0]), ("b", [0, 0, -1, 0])] =
      .ok (combine_or [("a", [1, 0, -1, 0]), ("b", [0, 0, -1, 0])]) :=
  (or_mode_characterization ⟨.OR, [], 1/2, 3⟩
    [("a", [1, 0, -1, 0]), ("b", [0, 0, -1, 0])] 4 rfl (by decide)
    (by decide) (by decide)).1

end Uptrade

namespace Uptrade

/-! ## C6: windows larger than the series length -/

lemma getQ_some (src : List ℚ) (k : ℤ) (h0 : 0 ≤ k) (hk : k < src.length) :
    ∃ v, getQ src k = some v := by
  have hlt : k.toNat < src.length := by omega
  exact ⟨src.get ⟨k.toNat, hlt⟩, by
    simp only [getQ, if_neg (not_lt.mpr h0)]
    exact List.get?_eq_get hlt⟩

lemma seqOpt_all_some {β : Type} :
    ∀ l : List (Option β), (∀ x ∈ l, ∃ y, x = some y) →
      ∃ t, seqOpt l = some t ∧ t.length = l.length ∧ ∀ z ∈ t, some z ∈ l := by
  intro l
  induction l with
  | nil => exact fun _ => ⟨[], rfl, rfl, by simp⟩
  | cons x xs ih =>
    intro h
    obtain ⟨y, hy⟩ := h x (by simp)
    subst hy
    obtain ⟨t, ht, hlen, hmem⟩ := ih (fun z hz => h z (by simp [hz]))
    refine ⟨y :: t, by simp [seqOpt, ht], by simp [hlen], ?_⟩
    intro z hz
    rcases List.mem_cons.mp hz with h1 | h2
    · simp [h1]
    · simp [hmem z h2]

lemma smaGo_some (src : List ℚ) (w : ℕ) :
    ∀ (l : List ℕ) (c : ℚ), (∀ i ∈ l, i < src.length) →
      ∃ t, smaGo src w l c = some t ∧ t.length = l.length ∧
        ((∀ i ∈ l, i < w - 1) → ∀ x ∈ t, x = none) := by
  intro l
  induction l with
  | nil => exact fun c _ => ⟨[], rfl, rfl, fun _ x hx => absurd hx (by simp)⟩
  | cons i rest ih =>
    intro c h
    have hi : i < src.length := h i (by simp)
    obtain ⟨v, hv⟩ := getQ_some src i (by omega) (by exact_mod_cast hi)
    by_cases hwi : w ≤ i
    · obtain ⟨v2, hv2⟩ := getQ_some src ((i : ℤ) - w)
        (by omega) (by omega)
      obtain ⟨t, ht, hlen, hnone⟩ := ih (c + v - v2) (fun j hj => h j (by simp [hj]))
      refine ⟨(if i < w - 1 then none else some ((c + v - v2) / w)) :: t, ?_,
        by simp [hlen], ?_⟩
      · simp only [smaGo, hv, hv2, if_pos hwi, Option.map_some', ht]
      · intro hall x hx
        rcases List.mem_cons.mp hx with h1 | h2
        · rw [h1, if_pos (hall i (by simp))]
        · exact hnone (fun j hj => hall j (by simp [hj])) x h2
    · obtain ⟨t, ht, hlen, hnone⟩ := ih (c + v) (fun j hj => h j (by simp [hj]))
      refine ⟨(if i < w - 1 then none else some ((c + v) / w)) :: t, ?_,
        by simp [hlen], ?_⟩
      · simp only [smaGo, hv, if_neg hwi, ht, Option.map_some']
      · intro hall x hx
        rcases List.mem_cons.mp hx with h1 | h2
        · rw [h1, if_pos (hall i (by simp))]
        · exact hnone (fun j hj => hall j (by simp [hj])) x h2

/-- **C6 (amended).** A window larger than the series length causes no
out-of-bounds access in the SMA and WMA kernels: both still return a
length-correct output (`some`, never an access failure); but the
positions lacking a full window hold the NaN warm-up sentinel — when
`window > len(src)` the entire output is NaN — not partial-window means
over the available history. -/
theorem ma_oversized_window_safe (src : List ℚ) (w : ℕ) (hw : 1 ≤ w) :
    (∃ o, sma_1d_nb src w = some o ∧ o.length = src.length ∧
      (src.length < w → ∀ x ∈ o, x = none)) ∧
    (∃ o, wma_1d_nb src w = some o ∧ o.length = src.length ∧
      (src.length < w → ∀ x ∈ o, x = none)) := by
  constructor
  · obtain ⟨t, ht, hlen, hnone⟩ :=
      smaGo_some src w (List.range src.length) 0 (fun i hi => List.mem_range.mp hi)
    refine ⟨t, ht, by simp [hlen], ?_⟩
    intro hshort
    exact hnone (fun i hi => by
      have := List.mem_range.mp hi
      omega)
  · have hsome : ∀ x ∈ (List.range src.length).map (fun i : ℕ =>
        if i < w - 1 then some none
        else
          (seqOpt ((List.range w).map
            (fun j : ℕ => (getQ src ((i : ℤ) - w + 1 + j)).map
              (fun v => v * ((j : ℚ) + 1))))).map
          (fun terms => some (terms.sum / ((w : ℚ) * ((w : ℚ) + 1) / 2)))),
        ∃ y, x = some y := by
      intro x hx
      obtain ⟨i, hi, hix⟩ := List.mem_map.mp hx
      have hin := List.mem_range.mp hi
      by_cases hcase : i < w - 1
      · exact ⟨none, by rw [← hix, if_pos hcase]⟩
      · have hinner : ∀ z ∈ (List.range w).map
            (fun j : ℕ => (getQ src ((i : ℤ) - w + 1 + j)).map
              (fun v => v * ((j : ℚ) + 1))), ∃ y, z = some y := by
          intro z hz
          obtain ⟨j, hj, hjz⟩ := List.mem_map.mp hz
          have hjw := List.mem_range.mp hj
          obtain ⟨v, hv⟩ := getQ_some src ((i : ℤ) - w + 1 + j)
            (by omega) (by omega)
          exact ⟨v * ((j : ℚ) + 1), by rw [← hjz, hv]; rfl⟩
        obtain ⟨terms, hterms, _, _⟩ := seqOpt_all_some _ hinner
        exact ⟨some (terms.sum / ((w : ℚ) * ((w : ℚ) + 1) / 2)),
          by rw [← hix, if_neg hcase, hterms]; rfl⟩
    obtain ⟨t, ht, hlen, hmem⟩ := seqOpt_all_some _ hsome
    refine ⟨t, ?_, by simp [hlen], ?_⟩
    · show wma_1d_nb src w = some t
      unfold wma_1d_nb
      exact ht
    intro hshort x hx
    have hsx := hmem x hx
    obtain ⟨i, hi, hix⟩ := List.mem_map.mp hsx
    have hin := List.mem_range.mp hi
    have hcase : i < w - 1 := by omega
    rw [if_pos hcase] at hix
    exact (Option.some.inj hix).symm

theorem ma_oversized_window_safe_witness :
    (∃ o, sma_1d_nb [1, 2] 3 = some o ∧ o.length = 2 ∧
      ((2 : ℕ) < 3 → ∀ x ∈ o, x = none)) ∧
    (∃ o, wma_1d_nb [1, 2] 3 = some o ∧ o.length = 2 ∧
      ((2 : ℕ) < 3 → ∀ x ∈ o, x = none)) :=
  ma_oversized_window_safe [1, 2] 3 (by norm_num)

/-- **C6 counterexample.** The "partial windows over the available
history" part of the claim is false for these kernels: with
`window = 3 > len = 2`, `sma_1d_nb` yields the NaN sentinel at every
position, whereas the shrinking-window means the spec sentence describes
would be `[1, 3/2]`. -/
theorem sma_not_partial_window :
    sma_1d_nb [1, 2] 3 = some [none, none] ∧
    smaPartialSpec [1, 2] 3 = [1, 3/2] ∧
    sma_1d_nb [1, 2] 3 ≠ some ([1, 3/2].map some) := by
  refine ⟨rfl, ?_, by decide⟩
  norm_num [smaPartialSpec, List.range_succ]

end Uptrade

namespace Uptrade

/-! ## C3: CONFIRM mode characterization -/

lemma lookup_mem {l : List (String × List ℤ)} {k : String} {v : List ℤ}
    (h : List.lookup k l = some v) : (k, v) ∈ l := by
  induction l with
  | nil => simp [List.lookup] at h
  | cons p rest ih =>
    rcases p with ⟨pk, pv⟩
    rw [List.lookup_cons] at h
    by_cases hk : k = pk
    · subst hk
      simp at h
      simp [h]
    · have hbeq : (k == pk) = false := beq_eq_false_iff_ne.mpr hk
      rw [hbeq] at h
      exact List.mem_cons_of_mem _ (ih h)

lemma secondaryArrays_length {cfg : SignalCombinerConfig}
    {signals : List (String × List ℤ)} {n : ℕ}
    (hlen : ∀ p ∈ signals, p.2.length = n) :
    ∀ a ∈ secondaryArrays cfg signals, a.length = n := by
  intro a ha
  obtain ⟨nm, hnm, hl⟩ := List.mem_filterMap.mp ha
  exact hlen (nm, a) (lookup_mem hl)

lemma slice_any_iff (a : List ℤ) (d : ℤ) (L H : ℕ) (hH : H ≤ a.length) :
    (((a.drop L).take (H - L)).any (fun x => x == d) = true) ↔
      ∃ j : ℕ, L ≤ j ∧ j < H ∧ a.getD j 0 = d := by
  rw [List.any_eq_true]
  constructor
  · rintro ⟨x, hx, hxd⟩
    rw [beq_iff_eq] at hxd
    subst hxd
    obtain ⟨m, hm⟩ := List.mem_iff_getElem?.mp hx
    rw [List.getElem?_take] at hm
    by_cases hmlt : m < H - L
    · rw [if_pos hmlt, List.getElem?_drop] at hm
      refine ⟨L + m, by omega, by omega, ?_⟩
      rw [List.getD_eq_getElem?_getD, hm]
      rfl
    · rw [if_neg hmlt] at hm
      exact absurd hm (by simp)
  · rintro ⟨j, hLj, hjH, hjd⟩
    have hjlen : j < a.length := lt_of_lt_of_le hjH hH
    refine ⟨d, ?_, by simp⟩
    rw [List.mem_iff_getElem?]
    refine ⟨j - L, ?_⟩
    rw [List.getElem?_take, if_pos (by omega), List.getElem?_drop]
    have hLj2 : L + (j - L) = j := by omega
    rw [hLj2, List.getElem?_eq_getElem hjlen]
    rw [List.getD_eq_getElem a 0 hjlen] at hjd
    exact congrArg some hjd

lemma pySlice_eq {α : Type} (a : List α) (lo hi : ℤ) (hlo0 : 0 ≤ lo)
    (hlon : lo ≤ (a.length : ℤ)) (hhi0 : 0 ≤ hi)
    (hhin : hi ≤ (a.length : ℤ)) :
    pySlice a lo hi = (a.drop lo.toNat).take (hi.toNat - lo.toNat) := by
  simp only [pySlice]
  rw [if_neg (not_lt.mpr hlo0), if_neg (not_lt.mpr hhi0),
    min_eq_left hlon, min_eq_left hhin]

/-- **C3.** CONFIRM mode: with no designated primary, or a primary whose
name is absent from the mapping, the result is the AND combination; with
a primary but no secondary arrays present, the primary passes through
unmodified; otherwise each bar with a non-zero primary yields the
primary's direction exactly when some secondary equals that direction at
some index of the inclusive window `[bar - confirm_window,
bar + confirm_window]` clipped to the array, and 0 otherwise. -/
theorem confirm_mode_characterization (cfg : SignalCombinerConfig)
    (signals : List (String × List ℤ)) (n : ℕ)
    (hw : 0 ≤ cfg.confirm_window)
    (hlen : ∀ p ∈ signals, p.2.length = n) :
    (primaryNames cfg = [] → combine_confirm cfg signals = combine_and signals) ∧
    (∀ pname, (primaryNames cfg).head? = some pname →
      List.lookup pname signals = none →
      combine_confirm cfg signals = combine_and signals) ∧
    (∀ pname primary, (primaryNames cfg).head? = some pname →
      List.lookup pname signals = some primary →
      secondaryArrays cfg signals = [] →
      combine_confirm cfg signals = primary) ∧
    (∀ pname primary, (primaryNames cfg).head? = some pname →
      List.lookup pname signals = some primary →
      secondaryArrays cfg signals ≠ [] →
      (combine_confirm cfg signals).length = primary.length ∧
      ∀ i, i < primary.length →
        (combine_confirm cfg signals).getD i 0 =
          if primary.getD i 0 ≠ 0 ∧
             ∃ a ∈ secondaryArrays cfg signals, ∃ j : ℕ, j < n ∧
               (i : ℤ) - cfg.confirm_window ≤ j ∧
               (j : ℤ) ≤ i + cfg.confirm_window ∧
               a.getD j 0 = primary.getD i 0
          then primary.getD i 0 else 0) := by
  refine ⟨?_, ?_, ?_, ?_⟩
  · intro h
    simp [combine_confirm, h]
  · intro pname h1 h2
    simp [combine_confirm, h1, h2]
  · intro pname primary h1 h2 h3
    simp [combine_confirm, h1, h2, h3]
  · intro pname primary h1 h2 h3
    have hplen : primary.length = n := hlen (pname, primary) (lookup_mem h2)
    have hunf : combine_confirm cfg signals =
        (List.range primary.length).map (fun i =>
          if primary.getD i 0 = 0 then 0
          else
            if (secondaryArrays cfg signals).any (fun a =>
                (pySlice a (max 0 ((i : ℤ) - cfg.confirm_window))
                  (min ((primary.length : ℕ) : ℤ)
                    ((i : ℤ) + cfg.confirm_window + 1))).any
                  (fun x => x == primary.getD i 0))
            then primary.getD i 0 else 0) := by
      simp only [combine_confirm, h1, h2]
      rw [if_neg h3]
    constructor
    · rw [hunf]
      simp
    intro i hi
    have hin : i < n := hplen ▸ hi
    have hinz : (i : ℤ) < (n : ℤ) := by exact_mod_cast hin
    rw [hunf, getD_map_range _ _ hi]
    by_cases h0 : primary.getD i 0 = 0
    · rw [if_pos h0, if_neg (fun hc => hc.1 h0)]
    rw [if_neg h0]
    have hcond : ∀ a ∈ secondaryArrays cfg signals,
        ((pySlice a (max 0 ((i : ℤ) - cfg.confirm_window))
            (min ((primary.length : ℕ) : ℤ)
              ((i : ℤ) + cfg.confirm_window + 1))).any
          (fun x => x == primary.getD i 0) = true) ↔
        ∃ j : ℕ, j < n ∧ (i : ℤ) - cfg.confirm_window ≤ j ∧
          (j : ℤ) ≤ i + cfg.confirm_window ∧
          a.getD j 0 = primary.getD i 0 := by
      intro a ha
      have han : a.length = n := secondaryArrays_length hlen a ha
      have hlo0 : (0 : ℤ) ≤ max 0 ((i : ℤ) - cfg.confirm_window) :=
        le_max_left _ _
      have hlon : max 0 ((i : ℤ) - cfg.confirm_window) ≤ (a.length : ℤ) := by
        rw [han]
        apply max_le (by exact_mod_cast Nat.zero_le n) (by omega)
      have hhi0 : (0 : ℤ) ≤
          min ((primary.length : ℕ) : ℤ) ((i : ℤ) + cfg.confirm_window + 1) :=
        le_min (by exact_mod_cast Nat.zero_le primary.length) (by omega)
      have hhin :
          min ((primary.length : ℕ) : ℤ) ((i : ℤ) + cfg.confirm_window + 1) ≤
            (a.length : ℤ) := by
        rw [han, ← hplen]
        exact min_le_left _ _
      rw [pySlice_eq a _ _ hlo0 hlon hhi0 hhin,
        slice_any_iff a _ _ _ (by omega)]
      rcases max_cases (0 : ℤ) ((i : ℤ) - cfg.confirm_window) with
        ⟨hm1, hm2⟩ | ⟨hm1, hm2⟩ <;>
      rcases min_cases ((primary.length : ℕ) : ℤ)
          ((i : ℤ) + cfg.confirm_window + 1) with ⟨hn1, hn2⟩ | ⟨hn1, hn2⟩ <;>
      rw [hm1, hn1] <;>
      · constructor
        · rintro ⟨j, hj1, hj2, hj3⟩
          exact ⟨j, by omega, by omega, by omega, hj3⟩
        · rintro ⟨j, hj1, hj2, hj3, hj4⟩
          exact ⟨j, by omega, by omega, hj4⟩
    have hEiff : ((secondaryArrays cfg signals).any (fun a =>
        (pySlice a (max 0 ((i : ℤ) - cfg.confirm_window))
          (min ((primary.length : ℕ) : ℤ)
            ((i : ℤ) + cfg.confirm_window + 1))).any
          (fun x => x == primary.getD i 0)) = true) ↔
        ∃ a ∈ secondaryArrays cfg signals, ∃ j : ℕ, j < n ∧
          (i : ℤ) - cfg.confirm_window ≤ j ∧
          (j : ℤ) ≤ i + cfg.confirm_window ∧
          a.getD j 0 = primary.getD i 0 := by
      rw [List.any_eq_true]
      exact ⟨fun ⟨a, ha, h⟩ => ⟨a, ha, (hcond a ha).mp h⟩,
        fun ⟨a, ha, h⟩ => ⟨a, ha, (hcond a ha).mpr h⟩⟩
    by_cases hE : ∃ a ∈ secondaryArrays cfg signals, ∃ j : ℕ, j < n ∧
        (i : ℤ) - cfg.confirm_window ≤ j ∧
        (j : ℤ) ≤ i + cfg.confirm_window ∧
        a.getD j 0 = primary.getD i 0
    · rw [if_pos (hEiff.mpr hE), if_pos ⟨h0, hE⟩]
    · rw [if_neg (fun hc => hE (hEiff.mp hc)), if_neg (fun hc => hE hc.2)]

theorem confirm_mode_characterization_witness :
    combine_confirm
        ⟨CombineMode.CONFIRM,
          [⟨"p", 1, "primary", "major"⟩, ⟨"s", 1, "secondary", "major"⟩], 1/2, 1⟩
        [("p", [1, 0, -1]), ("s", [0, 1, 0])] =
      combine_and [("p", [1, 0, -1]), ("s", [0, 1, 0])] ∨
    (combine_confirm
        ⟨CombineMode.CONFIRM,
          [⟨"p", 1, "primary", "major"⟩, ⟨"s", 1, "secondary", "major"⟩], 1/2, 1⟩
        [("p", [1, 0, -1]), ("s", [0, 1, 0])]).getD 0 0 = 1 :=
  Or.inr (by
    have h := (confirm_mode_characterization
      ⟨CombineMode.CONFIRM,
        [⟨"p", 1, "primary", "major"⟩, ⟨"s", 1, "secondary", "major"⟩], 1/2, 1⟩
      [("p", [1, 0, -1]), ("s", [0, 1, 0])] 3 (by decide)
      (by decide)).2.2.2 "p" [1, 0, -1] rfl rfl (by decide)
    rw [(h.2 0 (by decide))]
    rw [if_pos ⟨by decide, [0, 1, 0], by decide, 1, by decide, by decide,
      by decide, by decide⟩]
    decide)

end Uptrade

namespace Uptrade

/-! ## C8: Goertzel spectral estimator -/

lemma foldl_range_getD {α β : Type} (d : α) (f : β → α → β) :
    ∀ (l : List α) (init : β),
      (List.range l.length).foldl (fun b j => f b (l.getD j d)) init =
        l.foldl f init := by
  intro l
  induction l with
  | nil => intro init; simp
  | cons x xs ih =>
    intro init
    rw [List.length_cons, List.range_succ_eq_map, List.foldl_cons,
      List.foldl_map]
    simp only [List.getD_cons_zero, Nat.succ_eq_add_one, List.getD_cons_succ]
    exact ih (f init x)

lemma goertzelWindow_length {α : Type} (src : List α) (i len : ℕ)
    (hi : i < src.length) (hlen : len ≤ i + 1) :
    (goertzelWindow src i len).length = len := by
  simp only [goertzelWindow, List.length_drop, List.length_take]
  omega

lemma goertzelWindow_getD {α : Type} (d : α) (src : List α) (i len j : ℕ)
    (hi : i < src.length) (hlen : len ≤ i + 1) (hj : j < len) :
    (goertzelWindow src i len).getD j d = src.getD (i + 1 - len + j) d := by
  have hW := goertzelWindow_length src i len hi hlen
  have h1 : j < (goertzelWindow src i len).length := by omega
  rw [List.getD_eq_getElem _ _ h1, List.getD_eq_getElem _ _ (by omega)]
  simp only [goertzelWindow, List.getElem_drop, List.getElem_take]

lemma goertzelWindow_rev_map {α : Type} (d : α) (src : List α) (i len : ℕ)
    (hi : i < src.length) (hlen : len ≤ i + 1) :
    (List.range len).map (fun j => src.getD (i - j) d) =
      (goertzelWindow src i len).reverse := by
  have hW := goertzelWindow_length src i len hi hlen
  apply List.ext_getElem
  · simp [hW]
  intro j h1 h2
  have hjlen : j < len := by simpa using h1
  calc ((List.range len).map (fun j => src.getD (i - j) d))[j]
      = src.getD (i - j) d := by simp
    _ = src.getD (i + 1 - len + (len - 1 - j)) d := by congr 1; omega
    _ = (goertzelWindow src i len).getD (len - 1 - j) d :=
        (goertzelWindow_getD d src i len _ hi hlen (by omega)).symm
    _ = (goertzelWindow src i len).reverse.getD j d := by
        have hb : len - 1 - j < (goertzelWindow src i len).length := by omega
        have hbr : j < (goertzelWindow src i len).reverse.length := by
          simpa [hW] using hjlen
        rw [List.getD_eq_getElem _ d hb, List.getD_eq_getElem _ d hbr,
          List.getElem_reverse]
        congr 1
        omega
    _ = (goertzelWindow src i len).reverse[j] := List.getD_eq_getElem _ d h2

/-- **C8.** At each bar `i`, the Goertzel estimator evaluates the
Goertzel DFT recurrence over the window `src[i+1-len .. i]` of length
`len = min(i+1, window_size)`, multiplies the DFT amplitude by the
population standard deviation of exactly that window of source samples,
divides by `scale_factor`, and phase-modulates the result by
`sin(2*pi*i / cycle_len)`; bars whose window has fewer than 2 samples
output 0.  (Stated for every field interpretation of the transcendental
primitives, hence for the real-number semantics of the float64 code.) -/
theorem goertzel_estimator_structure {α : Type} [Field α]
    (ops : SpectralOps α) (src : List α) (window_size : ℕ)
    (cycle_len scale_factor : α) (i : ℕ) (hi : i < src.length) :
    (goertzel_1d_nb ops src window_size cycle_len scale_factor).getD i 0 =
      (if min (i + 1) window_size < 2 then 0
       else
         goertzelAmpOn ops (goertzelWindow src i (min (i + 1) window_size))
             cycle_len *
           stdOn ops (goertzelWindow src i (min (i + 1) window_size)) /
             scale_factor *
           ops.sin (ops.pi * 2 * (i : α) / cycle_len)) ∧
    (goertzelWindow src i (min (i + 1) window_size)).length =
      min (i + 1) window_size ∧
    (goertzel_1d_nb ops src window_size cycle_len scale_factor).length =
      src.length := by
  have hlen2 : min (i + 1) window_size ≤ i + 1 := min_le_left _ _
  have hWlen := goertzelWindow_length src i (min (i + 1) window_size) hi hlen2
  refine ⟨?_, hWlen, by simp [goertzel_1d_nb]⟩
  rw [goertzel_1d_nb, getD_map_range _ _ hi]
  simp only [goertzelBar, goertzelAmpOn, stdOn]
  by_cases hsmall : min (i + 1) window_size < 2
  · rw [if_pos hsmall, if_pos hsmall]
  rw [if_neg hsmall, if_neg hsmall]
  set len := min (i + 1) window_size with hlendef
  set W := goertzelWindow src i len with hWdef
  have hrev := goertzelWindow_rev_map (0 : α) src i len hi hlen2
  have hq : (List.range len).foldl
      (fun (q : α × α) j =>
        (2 * ops.cos (2 * ops.pi * ((len : α) / cycle_len) / (len : α)) * q.1 -
            q.2 + src.getD (i + 1 - len + j) 0, q.1)) ((0 : α), (0 : α)) =
      W.foldl
        (fun (q : α × α) v =>
          (2 * ops.cos (2 * ops.pi * ((len : α) / cycle_len) / (len : α)) * q.1 -
              q.2 + v, q.1)) ((0 : α), (0 : α)) := by
    rw [← foldl_range_getD (0 : α) _ W ((0 : α), (0 : α)), hWlen]
    apply List.foldl_ext
    intro q j hj
    rw [goertzelWindow_getD (0 : α) src i len j hi hlen2 (List.mem_range.mp hj)]
  have hsum : ((List.range len).map (fun j => src.getD (i - j) 0)).sum = W.sum := by
    rw [hrev, List.sum_reverse]
  have hvar : (List.range len).map
      (fun j => (src.getD (i - j) 0 - W.sum / (len : α)) ^ 2) =
      (W.map (fun x => (x - W.sum / (len : α)) ^ 2)).reverse := by
    rw [← List.map_reverse, ← hrev, List.map_map]
    rfl
  rw [hWlen, hq]
  simp only [hsum]
  rw [hvar, List.sum_reverse]

theorem goertzel_estimator_structure_witness :
    (goertzel_1d_nb (⟨fun _ => 0, fun _ => 1, fun _ => 0, 3⟩ : SpectralOps ℚ)
        [1, 2] 5 1 1).getD 1 0 =
      (if min (1 + 1) 5 < 2 then 0
       else
         goertzelAmpOn (⟨fun _ => 0, fun _ => 1, fun _ => 0, 3⟩ : SpectralOps ℚ)
             (goertzelWindow [1, 2] 1 (min (1 + 1) 5)) 1 *
           stdOn (⟨fun _ => 0, fun _ => 1, fun _ => 0, 3⟩ : SpectralOps ℚ)
             (goertzelWindow [1, 2] 1 (min (1 + 1) 5)) / 1 *
           SpectralOps.sin ⟨fun _ => 0, fun _ => 1, fun _ => 0, 3⟩
             (SpectralOps.pi ⟨fun _ => 0, fun _ => 1, fun _ => 0, 3⟩ * 2 *
               ((1 : ℕ) : ℚ) / 1)) :=
  (goertzel_estimator_structure ⟨fun _ => 0, fun _ => 1, fun _ => 0, 3⟩
    [1, 2] 5 1 1 1 (by norm_num)).1

end Uptrade
